import Mathlib

/-!
Verification of the inferior-control engine of the `deet` debugger
(`src/proj-1/deet/src/inferior.rs` and `src/proj-1/deet/src/debugger.rs`).

The tracee's memory is modelled one byte per address (`Mem`); the OS tracing
primitive only moves whole 64-bit machine words, so `ptraceReadWord` and
`ptraceWriteWord` assemble and scatter eight little-endian bytes, exactly as
`ptrace::read` / `ptrace::write` behave on x86-64.  Machine integers are `Nat`
with explicit `% 2 ^ 64` reasoning; the Rust `!` on `u64` becomes `not64`.
-/

namespace Deet

/-- Size of a machine word on the target (`size_of::<usize>()` on x86-64). -/
def WORD_SIZE : Nat := 8

/-- Modulus of the 64-bit machine integers (`usize` / `u64`). -/
def USIZE_MOD : Nat := 2 ^ 64

/-- Embedding of `align_addr_to_word` from `inferior.rs`:
`addr & (-(size_of::<usize>() as isize) as usize)`, and on a 64-bit machine
`-(8 : isize) as usize` is `2 ^ 64 - 8`. -/
def align_addr_to_word (addr : Nat) : Nat :=
  addr &&& (USIZE_MOD - WORD_SIZE)

/-- Bitwise complement on 64-bit words: Rust `!x` for `x : u64`. -/
def not64 (x : Nat) : Nat := USIZE_MOD - 1 - x

/-- Tracee memory, one byte (a value below 256) per address. -/
abbrev Mem := Nat → Nat

/-- Every cell of the memory really holds a byte. -/
def IsByteMem (mem : Mem) : Prop := ∀ a, mem a < 256

/-- Little-endian assembly of `n` bytes starting at `base`. -/
def readWordAux (mem : Mem) (base : Nat) : Nat → Nat
  | 0 => 0
  | n + 1 => mem base + 256 * readWordAux mem (base + 1) n

/-- Model of `ptrace::read`: the 64-bit word at `base`, eight bytes
little-endian (x86-64). -/
def ptraceReadWord (mem : Mem) (base : Nat) : Nat :=
  readWordAux mem base 8

/-- Model of `ptrace::write`: scatter the 64-bit word `w` into the eight
bytes at `base`. -/
def ptraceWriteWord (mem : Mem) (base w : Nat) : Mem :=
  fun a => if base ≤ a ∧ a < base + 8 then (w >>> (8 * (a - base))) % 256 else mem a

/-! Arithmetic facts about the word model. -/

theorem align_addr_to_word_eq (addr : Nat) (h : addr < 2 ^ 64) :
    align_addr_to_word addr = 8 * (addr / 8) := by
  have h8 : 8 * (addr / 8) = (addr >>> 3) <<< 3 := by
    rw [Nat.shiftRight_eq_div_pow, Nat.shiftLeft_eq]
    norm_num [Nat.mul_comm]
  rw [align_addr_to_word, h8]
  apply Nat.eq_of_testBit_eq
  intro i
  have hsub : USIZE_MOD - WORD_SIZE = 2 ^ 64 - (7 + 1) := by
    norm_num [USIZE_MOD, WORD_SIZE]
  have h7 : (7 : Nat) = 2 ^ 3 - 1 := by norm_num
  rw [Nat.testBit_land, hsub, Nat.testBit_two_pow_sub_succ (by norm_num),
    Nat.testBit_shiftLeft, Nat.testBit_shiftRight, h7, Nat.testBit_two_pow_sub_one]
  rcases Nat.lt_or_ge i 3 with hi | hi
  · simp [hi, Nat.not_le.mpr hi]
  · have heq : 3 + (i - 3) = i := by omega
    rcases Nat.lt_or_ge i 64 with hi64 | hi64
    · simp [hi, hi64, heq]
    · have hbit : addr.testBit i = false :=
        Nat.testBit_lt_two_pow
          (Nat.lt_of_lt_of_le h (Nat.pow_le_pow_right (by norm_num) hi64))
      simp [hbit, heq, Nat.not_lt.mpr hi64]

theorem align_addr_to_word_le (addr : Nat) (h : addr < 2 ^ 64) :
    align_addr_to_word addr ≤ addr := by
  rw [align_addr_to_word_eq addr h]
  omega

theorem addr_sub_align (addr : Nat) (h : addr < 2 ^ 64) :
    addr - align_addr_to_word addr = addr % 8 := by
  rw [align_addr_to_word_eq addr h]
  omega

theorem readWordAux_lt (mem : Mem) (hm : IsByteMem mem) :
    ∀ n base, readWordAux mem base n < 256 ^ n := by
  intro n
  induction n with
  | zero => intro base; simp [readWordAux]
  | succ n ih =>
    intro base
    have h1 := hm base
    have h2 := ih (base + 1)
    have h3 : (256 : Nat) ^ (n + 1) = 256 * 256 ^ n := by
      rw [pow_succ]; ring
    simp only [readWordAux]
    omega

theorem ptraceReadWord_lt (mem : Mem) (hm : IsByteMem mem) (base : Nat) :
    ptraceReadWord mem base < 2 ^ 64 := by
  have := readWordAux_lt mem hm 8 base
  have h : (256 : Nat) ^ 8 = 2 ^ 64 := by norm_num
  rw [ptraceReadWord]
  omega

theorem readWordAux_getByte (mem : Mem) (hm : IsByteMem mem) :
    ∀ n j base, j < n →
      (readWordAux mem base n >>> (8 * j)) % 256 = mem (base + j) := by
  intro n
  induction n with
  | zero => intro j base hj; omega
  | succ n ih =>
    intro j base hj
    cases j with
    | zero =>
      simp only [readWordAux, Nat.mul_zero, Nat.shiftRight_zero, Nat.add_zero]
      rw [Nat.add_mul_mod_self_left, Nat.mod_eq_of_lt (hm base)]
    | succ j =>
      have hdiv : (mem base + 256 * readWordAux mem (base + 1) n) / 256 =
          readWordAux mem (base + 1) n := by
        rw [Nat.add_mul_div_left _ _ (by norm_num : (0 : Nat) < 256),
          Nat.div_eq_of_lt (hm base)]
        omega
      have hpow : (2 : Nat) ^ (8 * (j + 1)) = 256 * 2 ^ (8 * j) := by
        have : 8 * (j + 1) = 8 + 8 * j := by ring
        rw [this, pow_add]; norm_num
      simp only [readWordAux]
      rw [Nat.shiftRight_eq_div_pow, hpow, ← Nat.div_div_eq_div_mul, hdiv,
        ← Nat.shiftRight_eq_div_pow]
      have := ih j (base + 1) (by omega)
      rw [this]
      congr 1
      omega

theorem ptraceReadWord_getByte (mem : Mem) (hm : IsByteMem mem) (base j : Nat)
    (hj : j < 8) :
    (ptraceReadWord mem base >>> (8 * j)) % 256 = mem (base + j) :=
  readWordAux_getByte mem hm 8 j base hj

/-! Bit-level behaviour of the in-word patch
`(word & !(0xff << 8*k)) | (val << 8*k)` computed by `write_byte`. -/

theorem not64_testBit (x : Nat) (hx : x < 2 ^ 64) (i : Nat) :
    (not64 x).testBit i = (decide (i < 64) && !x.testBit i) := by
  have h : not64 x = 2 ^ 64 - (x + 1) := by
    simp only [not64, USIZE_MOD]; omega
  rw [h]
  exact Nat.testBit_two_pow_sub_succ hx i

theorem byte_testBit_ge (v i : Nat) (hv : v < 256) (hi : 8 ≤ i) :
    v.testBit i = false := by
  have h : (2 : Nat) ^ 8 ≤ 2 ^ i := Nat.pow_le_pow_right (by norm_num) hi
  exact Nat.testBit_lt_two_pow (by omega)

theorem mask_lt (k : Nat) (hk : k < 8) : (0xff <<< (8 * k)) < 2 ^ 64 := by
  rw [Nat.shiftLeft_eq]
  calc 0xff * 2 ^ (8 * k) < 2 ^ 8 * 2 ^ (8 * k) :=
        (Nat.mul_lt_mul_right (Nat.two_pow_pos _)).mpr (by norm_num)
    _ = 2 ^ (8 + 8 * k) := by rw [pow_add]
    _ ≤ 2 ^ 64 := Nat.pow_le_pow_right (by norm_num) (by omega)

theorem patchWord_getByte_eq (word k v : Nat) (hk : k < 8)
    (hv : v < 256) :
    ((((word &&& not64 (0xff <<< (8 * k))) ||| (v <<< (8 * k))) >>> (8 * k)) % 256) = v := by
  have h256 : (256 : Nat) = 2 ^ 8 := by norm_num
  have hff : (0xff : Nat) = 2 ^ 8 - 1 := by norm_num
  apply Nat.eq_of_testBit_eq
  intro i
  rw [h256, Nat.testBit_mod_two_pow, Nat.testBit_shiftRight, Nat.testBit_lor,
    Nat.testBit_land, not64_testBit _ (mask_lt k hk), Nat.testBit_shiftLeft,
    Nat.testBit_shiftLeft, hff, Nat.testBit_two_pow_sub_one]
  rcases Nat.lt_or_ge i 8 with hi | hi
  · have h1 : 8 * k ≤ 8 * k + i := by omega
    have h2 : 8 * k + i - 8 * k = i := by omega
    simp [hi, h1, h2]
  · have hvb : v.testBit i = false := byte_testBit_ge v i hv hi
    simp [Nat.not_lt.mpr hi, hvb]

theorem patchWord_getByte_ne (word k v j : Nat) (hk : k < 8)
    (hv : v < 256) (hj : j < 8) (hne : j ≠ k) :
    ((((word &&& not64 (0xff <<< (8 * k))) ||| (v <<< (8 * k))) >>> (8 * j)) % 256) =
      (word >>> (8 * j)) % 256 := by
  have h256 : (256 : Nat) = 2 ^ 8 := by norm_num
  have hff : (0xff : Nat) = 2 ^ 8 - 1 := by norm_num
  apply Nat.eq_of_testBit_eq
  intro i
  rw [h256, Nat.testBit_mod_two_pow, Nat.testBit_mod_two_pow,
    Nat.testBit_shiftRight, Nat.testBit_shiftRight, Nat.testBit_lor,
    Nat.testBit_land, not64_testBit _ (mask_lt k hk), Nat.testBit_shiftLeft,
    Nat.testBit_shiftLeft, hff, Nat.testBit_two_pow_sub_one]
  rcases Nat.lt_or_ge i 8 with hi | hi
  · have hlt64 : 8 * j + i < 64 := by omega
    rcases Nat.lt_or_ge j k with hjk | hjk
    · have hno : ¬ 8 * k ≤ 8 * j + i := by omega
      simp [hi, hno, hlt64]
    · have hyes : 8 * k ≤ 8 * j + i := by omega
      have hbig : ¬ (8 * j + i - 8 * k < 8) := by omega
      have hvb : v.testBit (8 * j + i - 8 * k) = false :=
        byte_testBit_ge v _ hv (by omega)
      simp [hi, hyes, hbig, hlt64, hvb]
  · simp [Nat.not_lt.mpr hi]

theorem patchWord_lt (word k v : Nat) (hw : word < 2 ^ 64) (hk : k < 8)
    (hv : v < 256) :
    ((word &&& not64 (0xff <<< (8 * k))) ||| (v <<< (8 * k))) < 2 ^ 64 := by
  apply Nat.or_lt_two_pow
  · exact Nat.lt_of_le_of_lt Nat.and_le_left hw
  · rw [Nat.shiftLeft_eq]
    calc v * 2 ^ (8 * k) < 2 ^ 8 * 2 ^ (8 * k) :=
          (Nat.mul_lt_mul_right (Nat.two_pow_pos _)).mpr hv
      _ = 2 ^ (8 + 8 * k) := by rw [pow_add]
      _ ≤ 2 ^ 64 := Nat.pow_le_pow_right (by norm_num) (by omega)

/-! The inferior controller (`struct Inferior` in `inferior.rs`).  The child
process's observable state (its memory and the two registers the debugger
uses) is folded into the structure; `replaced_values` is the breakpoint
shadow map `HashMap<usize, u8>`, modelled extensionally as a partial map. -/

/-- Breakpoint shadow map: patched address to the original displaced byte. -/
abbrev ShadowMap := Nat → Option Nat

/-- Model of `HashMap::insert`. -/
def ShadowMap.insert (m : ShadowMap) (k v : Nat) : ShadowMap :=
  fun x => if x = k then some v else m x

/-- State of one traced child plus its controller: the tracee's memory and
registers together with the controller's shadow map. -/
structure Inferior where
  mem : Mem
  replaced_values : ShadowMap
  rip : Nat
  rbp : Nat

/-- Embedding of `Inferior::write_byte` from `inferior.rs`: word-aligned
read-modify-write of one byte of the tracee, recording the displaced byte in
the shadow map when the written value is the trap byte `0xcc`.  Returns the
updated state together with the displaced (original) byte. -/
def write_byte (inf : Inferior) (addr val : Nat) : Inferior × Nat :=
  let aligned_addr := align_addr_to_word addr
  let byte_offset := addr - aligned_addr
  let word := ptraceReadWord inf.mem aligned_addr
  let origin_byte := (word >>> (8 * byte_offset)) &&& 0xff
  let masked_word := word &&& not64 (0xff <<< (8 * byte_offset))
  let updated_word := masked_word ||| (val <<< (8 * byte_offset))
  let mem' := ptraceWriteWord inf.mem aligned_addr updated_word
  let rv := if val = 0xcc then inf.replaced_values.insert addr origin_byte
            else inf.replaced_values
  ({ inf with mem := mem', replaced_values := rv }, origin_byte)

theorem land_ff_eq_mod (x : Nat) : x &&& 0xff = x % 256 := by
  have h256 : (256 : Nat) = 2 ^ 8 := by norm_num
  have hff : (0xff : Nat) = 2 ^ 8 - 1 := by norm_num
  apply Nat.eq_of_testBit_eq
  intro i
  rw [h256, Nat.testBit_mod_two_pow, Nat.testBit_land, hff,
    Nat.testBit_two_pow_sub_one, Bool.and_comm]

/-! Semantic facts about `write_byte`, under the side conditions that hold in
the real program: the address fits in a machine word, the written value is a
byte (`val : u8` in Rust), and the memory holds bytes. -/

theorem write_byte_ret (inf : Inferior) (addr val : Nat) (ha : addr < 2 ^ 64)
    (hm : IsByteMem inf.mem) :
    (write_byte inf addr val).2 = inf.mem addr := by
  have hk : addr - align_addr_to_word addr = addr % 8 := addr_sub_align addr ha
  show (ptraceReadWord inf.mem (align_addr_to_word addr) >>>
      (8 * (addr - align_addr_to_word addr))) &&& 0xff = inf.mem addr
  rw [land_ff_eq_mod, hk,
    ptraceReadWord_getByte inf.mem hm (align_addr_to_word addr) (addr % 8)
      (Nat.mod_lt addr (by norm_num))]
  congr 1
  rw [align_addr_to_word_eq addr ha]
  omega

theorem write_byte_mem_at (inf : Inferior) (addr val : Nat) (ha : addr < 2 ^ 64)
    (hv : val < 256) :
    (write_byte inf addr val).1.mem addr = val := by
  have hk : addr - align_addr_to_word addr = addr % 8 := addr_sub_align addr ha
  have hin : align_addr_to_word addr ≤ addr ∧ addr < align_addr_to_word addr + 8 := by
    rw [align_addr_to_word_eq addr ha]
    omega
  show ptraceWriteWord inf.mem (align_addr_to_word addr) _ addr = val
  rw [ptraceWriteWord, if_pos hin, hk]
  exact patchWord_getByte_eq _ _ _ (Nat.mod_lt addr (by norm_num)) hv

theorem write_byte_mem_frame (inf : Inferior) (addr val b : Nat)
    (ha : addr < 2 ^ 64) (hv : val < 256) (hm : IsByteMem inf.mem)
    (hne : b ≠ addr) :
    (write_byte inf addr val).1.mem b = inf.mem b := by
  have hk : addr - align_addr_to_word addr = addr % 8 := addr_sub_align addr ha
  have halign : align_addr_to_word addr = 8 * (addr / 8) :=
    align_addr_to_word_eq addr ha
  show ptraceWriteWord inf.mem (align_addr_to_word addr) _ b = inf.mem b
  rw [ptraceWriteWord]
  by_cases hb : align_addr_to_word addr ≤ b ∧ b < align_addr_to_word addr + 8
  · rw [if_pos hb, hk]
    have hj : b - align_addr_to_word addr < 8 := by omega
    have hjk : b - align_addr_to_word addr ≠ addr % 8 := by omega
    rw [patchWord_getByte_ne _ _ _ _ (Nat.mod_lt addr (by norm_num)) hv hj hjk,
      ptraceReadWord_getByte inf.mem hm (align_addr_to_word addr) _ hj]
    congr 1
    omega
  · rw [if_neg hb]

theorem write_byte_isByteMem (inf : Inferior) (addr val : Nat)
    (hm : IsByteMem inf.mem) :
    IsByteMem (write_byte inf addr val).1.mem := by
  intro a
  show ptraceWriteWord inf.mem _ _ a < 256
  rw [ptraceWriteWord]
  by_cases hb : align_addr_to_word addr ≤ a ∧ a < align_addr_to_word addr + 8
  · rw [if_pos hb]
    exact Nat.mod_lt _ (by norm_num)
  · rw [if_neg hb]
    exact hm a

theorem write_byte_map_at (inf : Inferior) (addr val : Nat) :
    (write_byte inf addr val).1.replaced_values addr =
      if val = 0xcc then some ((write_byte inf addr val).2)
      else inf.replaced_values addr := by
  by_cases hv : val = 0xcc
  · simp [write_byte, ShadowMap.insert, hv]
  · simp [write_byte, hv]

theorem write_byte_map_frame (inf : Inferior) (addr val b : Nat)
    (hne : b ≠ addr) :
    (write_byte inf addr val).1.replaced_values b = inf.replaced_values b := by
  by_cases hv : val = 0xcc
  · simp [write_byte, ShadowMap.insert, hv, hne]
  · simp [write_byte, hv]

theorem write_byte_rip (inf : Inferior) (addr val : Nat) :
    (write_byte inf addr val).1.rip = inf.rip := rfl

/-- Concrete inferior state used to instantiate the general theorems. -/
def infW : Inferior :=
  ⟨fun a => a % 256, fun _ => none, 0, 0⟩

theorem infW_isByteMem : IsByteMem infW.mem :=
  fun a => Nat.mod_lt a (by norm_num)

/-- C2: for every address `A` and byte `V`, the byte patch computes
`base = A` rounded down to the word boundary and `k = A - base` with
`0 ≤ k < 8`, reads the word at `base`, returns
`original = (word >> 8k) & 0xff`, writes back
`(word & !(0xff << 8k)) | (V << 8k)` at `base`, and records `A → original`
in the shadow map exactly when `V = 0xCC`, leaving every other entry (and,
when `V ≠ 0xCC`, the entry at `A`) in place. -/
theorem write_byte_characterization (inf : Inferior) (A V : Nat)
    (hA : A < 2 ^ 64) :
    align_addr_to_word A = A - A % 8
    ∧ A - align_addr_to_word A = A % 8
    ∧ A % 8 < 8
    ∧ (write_byte inf A V).2 =
        (ptraceReadWord inf.mem (align_addr_to_word A) >>> (8 * (A % 8))) % 256
    ∧ (write_byte inf A V).1.mem =
        ptraceWriteWord inf.mem (align_addr_to_word A)
          ((ptraceReadWord inf.mem (align_addr_to_word A) &&&
              not64 (0xff <<< (8 * (A % 8)))) ||| (V <<< (8 * (A % 8))))
    ∧ ((write_byte inf A V).1.replaced_values A =
        if V = 0xcc then some ((write_byte inf A V).2)
        else inf.replaced_values A)
    ∧ (∀ B, B ≠ A →
        (write_byte inf A V).1.replaced_values B = inf.replaced_values B) := by
  have hk := addr_sub_align A hA
  refine ⟨?_, hk, Nat.mod_lt A (by norm_num), ?_, ?_,
    write_byte_map_at inf A V, fun B hB => write_byte_map_frame inf A V B hB⟩
  · rw [align_addr_to_word_eq A hA]; omega
  · show (ptraceReadWord inf.mem (align_addr_to_word A) >>>
        (8 * (A - align_addr_to_word A))) &&& 0xff = _
    rw [hk, land_ff_eq_mod]
  · show ptraceWriteWord inf.mem (align_addr_to_word A)
        ((ptraceReadWord inf.mem (align_addr_to_word A) &&&
            not64 (0xff <<< (8 * (A - align_addr_to_word A)))) |||
          (V <<< (8 * (A - align_addr_to_word A)))) = _
    rw [hk]

/-- Witness for C2 at the concrete input `A = 11`, `V = 0xcc`. -/
theorem write_byte_characterization_witness :
    (11 : Nat) < 2 ^ 64 ∧
    (write_byte infW 11 0xcc).2 =
      (ptraceReadWord infW.mem (align_addr_to_word 11) >>> (8 * (11 % 8))) % 256 :=
  ⟨by norm_num, (write_byte_characterization infW 11 0xcc (by norm_num)).2.2.2.1⟩

/-- C3: patching `V1` then `V2` at the same address `A` leaves the tracee
with byte `V2` at `A`; the call with `V1` returns the byte previously at
`A`, and the second call returns `V1`. -/
theorem write_byte_round_trip (inf : Inferior) (A V1 V2 : Nat)
    (hA : A < 2 ^ 64) (h1 : V1 < 256) (h2 : V2 < 256) (hm : IsByteMem inf.mem) :
    (write_byte (write_byte inf A V1).1 A V2).1.mem A = V2
    ∧ (write_byte inf A V1).2 = inf.mem A
    ∧ (write_byte (write_byte inf A V1).1 A V2).2 = V1 := by
  refine ⟨write_byte_mem_at _ A V2 hA h2, write_byte_ret inf A V1 hA hm, ?_⟩
  rw [write_byte_ret _ A V2 hA (write_byte_isByteMem inf A V1 hm)]
  exact write_byte_mem_at inf A V1 hA h1

/-- Witness for C3 at the concrete input `A = 11`, `V1 = 7`, `V2 = 9`. -/
theorem write_byte_round_trip_witness :
    (write_byte (write_byte infW 11 7).1 11 9).1.mem 11 = 9
    ∧ (write_byte infW 11 7).2 = infW.mem 11
    ∧ (write_byte (write_byte infW 11 7).1 11 9).2 = 7 :=
  write_byte_round_trip infW 11 7 9 (by norm_num) (by norm_num) (by norm_num)
    infW_isByteMem

/-- C4: a byte patch at an address `A` that is not word-aligned sets the one
byte at `A` and preserves every other byte, in particular the neighbouring
bytes of the word containing `A`. -/
theorem write_byte_unaligned_one_byte (inf : Inferior) (A V : Nat)
    (hA : A < 2 ^ 64) (_halign : A % 8 ≠ 0) (hV : V < 256)
    (hm : IsByteMem inf.mem) :
    (write_byte inf A V).1.mem A = V
    ∧ ∀ B, B ≠ A → (write_byte inf A V).1.mem B = inf.mem B :=
  ⟨write_byte_mem_at inf A V hA hV,
   fun B hB => write_byte_mem_frame inf A V B hA hV hm hB⟩

/-- Witness for C4 at the concrete input `A = 11` (unaligned), `V = 5`,
checking the neighbour byte `B = 12`. -/
theorem write_byte_unaligned_one_byte_witness :
    (11 : Nat) % 8 ≠ 0
    ∧ (write_byte infW 11 5).1.mem 11 = 5
    ∧ (write_byte infW 11 5).1.mem 12 = infW.mem 12 :=
  ⟨by norm_num,
   (write_byte_unaligned_one_byte infW 11 5 (by norm_num) (by norm_num)
      (by norm_num) infW_isByteMem).1,
   (write_byte_unaligned_one_byte infW 11 5 (by norm_num) (by norm_num)
      (by norm_num) infW_isByteMem).2 12 (by norm_num)⟩

/-! The debugger session (`debugger.rs`).  The DWARF oracle, the command
prompt and the OS wait are external collaborators: the oracle is a record of
lookup functions, and the effect of letting the tracee run (single-step,
continue, kill) is a parameter of each handler, since the tracee's own
execution is outside the embedded program. -/

/-- Unix signal number of `SIGTRAP`. -/
def SIGTRAP : Nat := 5

/-- Embedding of `inferior.rs`'s `enum Status`. -/
inductive Status where
  | stopped (signal : Nat) (rip : Nat)
  | exited (code : Int)
  | signaled (signal : Nat)
deriving DecidableEq, Repr

/-- Contract of the symbol oracle (`DwarfData`), the external collaborator
answering address and symbol queries.  Strings are modelled as `List Char`. -/
structure DwarfData where
  get_addr_for_line : Option (List Char) → Nat → Option Nat
  get_addr_for_function : Option (List Char) → List Char → Option Nat
  get_function_from_addr : Nat → Option (List Char)
  get_line_from_addr : Nat → Option (List Char)

/-- State of the debugger session (`struct Debugger`); the target path and
the readline editor are external and carry no session logic. -/
structure Debugger where
  debug_data : DwarfData
  inferior : Option Inferior
  breakpoints : List Nat

/-- Tracee-directed operations a command performs, in order.  `writeByteEv`
stands for one `write_byte` read-modify-write patch. -/
inductive Event where
  | writeByteEv (addr val : Nat)
  | setRipEv (rip : Nat)
  | stepEv
  | waitEv
  | contEv
  | killEv
deriving DecidableEq, Repr

/-- User-visible output lines; a stop/exit report is kept as the structured
status it formats. -/
inductive OutLine where
  | text (s : String)
  | statusLine (st : Status)
  | setBp (ordinal : Nat) (addr : Nat)
deriving DecidableEq, Repr

/-- How a command handler leaves the session: back at the prompt with a new
state, exiting the session (`quit`), or aborting the process (`panic!` or
`expect` in the source). -/
inductive CmdOutcome where
  | ok (d : Debugger)
  | exitSession
  | fatal

/-- Trace of one command dispatch: the ptrace operations issued, the lines
printed, and the resulting session state. -/
structure CmdEffect where
  events : List Event
  output : List OutLine
  outcome : CmdOutcome

/-- Embedding of the `DebuggerCommand::Continue` arm of `Debugger::run`.
`stepFn` is the tracee's own behaviour across `ptrace::step` plus the wait
(one instruction executed); `contFn` is its behaviour across `ptrace::cont`
plus the wait, together with the observed status.  `regs.rip - 1` is `u64`
arithmetic in the source; the tracee is stopped past a real instruction, so
`rip ≥ 1` and `Nat` subtraction agrees with it. -/
def continueCmd (stepFn : Inferior → Inferior)
    (contFn : Inferior → Inferior × Status) (d : Debugger) : CmdEffect :=
  match d.inferior with
  | none => ⟨[], [.text "please run target first"], .ok d⟩
  | some inf =>
    let rip := inf.rip - 1
    match inf.replaced_values rip with
    | some val =>
      let res := write_byte inf rip val
      let trap_byte := res.2
      if trap_byte ≠ 0xcc then
        ⟨[.writeByteEv rip val], [], .fatal⟩
      else
        let inf2 : Inferior := { res.1 with rip := rip }
        let inf3 := stepFn inf2
        let res2 := write_byte inf3 rip 0xcc
        let res3 := contFn res2.1
        ⟨[.writeByteEv rip val, .setRipEv rip, .stepEv, .waitEv,
            .writeByteEv rip 0xcc, .contEv, .waitEv],
          [.statusLine res3.2],
          .ok { d with inferior := some res3.1 }⟩
    | none =>
      let res3 := contFn inf
      ⟨[.contEv, .waitEv], [.statusLine res3.2],
        .ok { d with inferior := some res3.1 }⟩

/-- Rust `char::to_digit(radix)`. -/
def to_digit (c : Char) (radix : Nat) : Option Nat :=
  let n := c.toNat
  let d :=
    if 48 ≤ n ∧ n ≤ 57 then some (n - 48)
    else if 97 ≤ n ∧ n ≤ 122 then some (n - 97 + 10)
    else if 65 ≤ n ∧ n ≤ 90 then some (n - 65 + 10)
    else none
  match d with
  | some v => if v < radix then some v else none
  | none => none

/-- Digit-accumulation loop of Rust's integer parsing, without the overflow
check (restored below: the accumulated value overflows a step exactly when
the final value reaches `2 ^ 64`). -/
def parseDigitsAux (radix : Nat) : List Char → Nat → Option Nat
  | [], acc => some acc
  | c :: cs, acc =>
    match to_digit c radix with
    | some dv => parseDigitsAux radix cs (acc * radix + dv)
    | none => none

/-- Embedding of `usize::from_str_radix` (and of `str::parse::<usize>` when
`radix = 10`): an optional leading `+`, then one or more digits of the
radix, failing on overflow of the 64-bit `usize`. -/
def from_str_radix (radix : Nat) (s : List Char) : Option Nat :=
  let digits := if s.head? = some '+' then s.tail else s
  if digits = [] then none
  else
    match parseDigitsAux radix digits 0 with
    | some v => if v < 2 ^ 64 then some v else none
    | none => none

/-- Embedding of `Debugger::parse_addr`.  The `0x` test lowercases the token
first (`to_lowercase().starts_with("0x")`; only ASCII is relevant to that
prefix); the hex digits parsed are the original token minus two characters,
as in `&addr[2..]`. -/
def parse_addr (dd : DwarfData) (addr : List Char) : Option Nat :=
  if (addr.map Char.toLower).take 2 = ['0', 'x'] then
    from_str_radix 16 (addr.drop 2)
  else
    match from_str_radix 10 addr with
    | some line_num => dd.get_addr_for_line none line_num
    | none => dd.get_addr_for_function none addr

/-- Embedding of the `DebuggerCommand::Breakpoint` arm of `Debugger::run`:
resolve the spec, append to the breakpoint list, patch the live inferior if
any, and print `set breakpoint <len - 1> at position <addr>`. -/
def breakpointCmd (d : Debugger) (s : List Char) : Debugger × List OutLine :=
  match parse_addr d.debug_data s with
  | some addr =>
    let bps := d.breakpoints ++ [addr]
    let inf' := d.inferior.map (fun inf => (write_byte inf addr 0xcc).1)
    ({ d with breakpoints := bps, inferior := inf' },
      [.setBp (bps.length - 1) addr])
  | none => (d, [.text "invalid breakpoint format"])

/-- Fold of `breakpointCmd` over a whole session of `break` commands,
collecting each command's output. -/
def runBreaks (d : Debugger) : List (List Char) → Debugger × List (List OutLine)
  | [] => (d, [])
  | c :: rest =>
    let r := breakpointCmd d c
    let r2 := runBreaks r.1 rest
    (r2.1, r.2 :: r2.2)

/-- Embedding of the `DebuggerCommand::Quit` arm of `Debugger::run`:
`self.inferior.as_mut().unwrap().terminate()` kills the tracee and reaps it
(`termFn` is the tracee's final status), then the session returns; with no
inferior the `unwrap` panics.  -/
def quitCmd (termFn : Inferior → Inferior × Status) (d : Debugger) : CmdEffect :=
  match d.inferior with
  | none => ⟨[], [], .fatal⟩
  | some inf =>
    let r := termFn inf
    ⟨[.killEv, .waitEv], [.statusLine r.2], .exitSession⟩

/-- Outcome of `Inferior::new`: the process aborts (a failed `expect`), the
attempt returns `None` after printing a line, or a live controller comes
back. -/
inductive LaunchResult where
  | fatal
  | noInferior (msg : String)
  | launched (inf : Inferior)

/-- Breakpoint installation loop of `Inferior::new`: patch `0xcc` at every
accumulated address (failures of individual patches cannot arise in the
memory model). -/
def installBps (inf : Inferior) : List Nat → Inferior
  | [] => inf
  | a :: rest => installBps (write_byte inf a 0xcc).1 rest

/-- Embedding of `Inferior::new`.  `spawnRes` is the result of
`Command::spawn`: `none` when the child could not be spawned (the source
calls `.expect`, which panics), otherwise the fresh tracee's memory and
registers.  `firstWait` is the outcome of the initial `waitpid`. -/
def Inferior.new (spawnRes : Option (Mem × Nat × Nat))
    (firstWait : Except Unit Status) (breakpoints : List Nat) : LaunchResult :=
  match spawnRes with
  | none => .fatal
  | some (mem0, rip0, rbp0) =>
    let inferior : Inferior := ⟨mem0, fun _ => none, rip0, rbp0⟩
    match firstWait with
    | .error _ => .noInferior "failed to stop target programme"
    | .ok (.exited _) => .noInferior "target programme exited prematurely"
    | .ok (.signaled sig) =>
      if sig = SIGTRAP then .noInferior "target programme killed by SIGTRAP"
      else .noInferior "failed to create inferior"
    | .ok (.stopped sig _) =>
      if sig = SIGTRAP then .launched (installBps inferior breakpoints)
      else .noInferior "failed to create inferior"

/-- Result of the backtrace walk: the frames printed (address, function,
location), a panic (an `unwrap` on a failed oracle lookup), or exhausted
fuel (the source loop has no intrinsic bound). -/
inductive BtResult where
  | frames (fs : List (Nat × List Char × List Char))
  | fatal
  | fuelOut

/-- Prepend a frame to a successful walk, passing failures through. -/
def consFrame (f : Nat × List Char × List Char) : BtResult → BtResult
  | .frames fs => .frames (f :: fs)
  | r => r

/-- Embedding of `Inferior::print_backtrace`: print the frame for `rip`,
stop on `main`, otherwise reload `rip` from the word at `rbp + 8` and `rbp`
from the word at `rbp` and loop.  `fuel` bounds the recursion, which the
source leaves unbounded. -/
def print_backtrace (dd : DwarfData) (mem : Mem) : Nat → Nat → Nat → BtResult
  | 0, _, _ => .fuelOut
  | fuel + 1, rip, rbp =>
    match dd.get_function_from_addr rip, dd.get_line_from_addr rip with
    | some func, some line =>
      if func = "main".toList then .frames [(rip, func, line)]
      else
        consFrame (rip, func, line)
          (print_backtrace dd mem fuel (ptraceReadWord mem (rbp + 8))
            (ptraceReadWord mem rbp))
    | _, _ => .fatal

/-! Concrete session states used by witnesses and counterexamples. -/

/-- Oracle that resolves nothing. -/
def ddNone : DwarfData :=
  ⟨fun _ _ => none, fun _ _ => none, fun _ => none, fun _ => none⟩

/-- Oracle that resolves every line to address 1 and every function name to
address 2, telling the two resolution paths apart. -/
def ddLF : DwarfData :=
  ⟨fun _ _ => some 1, fun _ _ => some 2, fun _ => none, fun _ => none⟩

/-- Oracle of a two-frame program: `greet` at address 100 called from `main`
at address 200. -/
def ddBT : DwarfData :=
  ⟨fun _ _ => none, fun _ _ => none,
   fun a => if a = 100 then some "greet".toList
            else if a = 200 then some "main".toList else none,
   fun a => if a = 100 then some "main.c:3".toList
            else if a = 200 then some "main.c:7".toList else none⟩

/-- Memory of that two-frame program: the return address 200 sits in the
word at `rbp + 8 = 1008`. -/
def memBT : Mem := fun a => if a = 1008 then 200 else 0

/-- Inferior stopped just past a trap byte: `rip = 10`, the shadow map knows
address 9 with original byte `0x55`, and memory holds `0xcc` at 9. -/
def infC : Inferior :=
  ⟨fun a => if a = 9 then 0xcc else 0,
   fun a => if a = 9 then some 0x55 else none, 10, 0⟩

/-- Session holding that inferior. -/
def dC : Debugger := ⟨ddNone, some infC, [9]⟩

/-- Session holding no inferior. -/
def dNoInf : Debugger := ⟨ddNone, none, []⟩

/-- Empty starting session for the breakpoint-command runs. -/
def dS : Debugger := ⟨ddNone, none, []⟩

/-- Trivial continue/terminate oracle: the tracee just exits cleanly. -/
def contFnC : Inferior → Inferior × Status := fun i => (i, .exited 0)

/-- C1: when `continue` finds `A' = rip - 1` in the shadow map, the handler
performs, in order: the byte patch restoring the original byte at `A'`
(aborting fatally unless the displaced byte is `0xCC`), the rewind of the
instruction pointer to `A'`, one single-step with its wait, the re-arming
patch of `0xCC` at `A'`, and only then the continue with its wait, reporting
the resulting status. -/
theorem continue_breakpoint_sequence (stepFn : Inferior → Inferior)
    (contFn : Inferior → Inferior × Status) (d : Debugger) (inf : Inferior)
    (val : Nat) (hinf : d.inferior = some inf)
    (hkey : inf.replaced_values (inf.rip - 1) = some val) :
    ((write_byte inf (inf.rip - 1) val).2 = 0xcc →
      continueCmd stepFn contFn d =
        ⟨[.writeByteEv (inf.rip - 1) val, .setRipEv (inf.rip - 1), .stepEv,
            .waitEv, .writeByteEv (inf.rip - 1) 0xcc, .contEv, .waitEv],
          [.statusLine (contFn (write_byte
              (stepFn { (write_byte inf (inf.rip - 1) val).1 with
                          rip := inf.rip - 1 })
              (inf.rip - 1) 0xcc).1).2],
          .ok { d with inferior := some (contFn (write_byte
              (stepFn { (write_byte inf (inf.rip - 1) val).1 with
                          rip := inf.rip - 1 })
              (inf.rip - 1) 0xcc).1).1 }⟩)
    ∧ ((write_byte inf (inf.rip - 1) val).2 ≠ 0xcc →
      continueCmd stepFn contFn d =
        ⟨[.writeByteEv (inf.rip - 1) val], [], .fatal⟩) := by
  constructor
  · intro hcc
    simp [continueCmd, hinf, hkey, hcc]
  · intro hcc
    simp [continueCmd, hinf, hkey, hcc]

/-- Witness for C1 at the concrete stopped inferior `infC`. -/
theorem continue_breakpoint_sequence_witness :
    infC.replaced_values (infC.rip - 1) = some 0x55
    ∧ continueCmd id contFnC dC =
      ⟨[.writeByteEv (infC.rip - 1) 0x55, .setRipEv (infC.rip - 1), .stepEv,
          .waitEv, .writeByteEv (infC.rip - 1) 0xcc, .contEv, .waitEv],
        [.statusLine (contFnC (write_byte
            (id { (write_byte infC (infC.rip - 1) 0x55).1 with
                    rip := infC.rip - 1 })
            (infC.rip - 1) 0xcc).1).2],
        .ok { dC with inferior := some (contFnC (write_byte
            (id { (write_byte infC (infC.rip - 1) 0x55).1 with
                    rip := infC.rip - 1 })
            (infC.rip - 1) 0xcc).1).1 }⟩ :=
  ⟨rfl, (continue_breakpoint_sequence id contFnC dC infC 0x55 rfl rfl).1 rfl⟩

/-- C10: a `continue` with no controller prints exactly
`please run target first`, performs no tracee-directed operation, and
returns to the prompt with the session unchanged. -/
theorem continue_no_inferior (stepFn : Inferior → Inferior)
    (contFn : Inferior → Inferior × Status) (d : Debugger)
    (h : d.inferior = none) :
    continueCmd stepFn contFn d =
      ⟨[], [.text "please run target first"], .ok d⟩ := by
  simp [continueCmd, h]

/-- Witness for C10 at the concrete empty session. -/
theorem continue_no_inferior_witness :
    dNoInf.inferior = none
    ∧ continueCmd id contFnC dNoInf =
        ⟨[], [.text "please run target first"], .ok dNoInf⟩ :=
  ⟨rfl, continue_no_inferior id contFnC dNoInf rfl⟩

/-- C7 (code divergence): `quit` before any `run` hits
`self.inferior.as_mut().unwrap()` on `None` and panics, instead of exiting
cleanly; with a live controller it terminates it and exits the session. -/
theorem quit_behaviour :
    (quitCmd contFnC dNoInf).outcome = CmdOutcome.fatal
    ∧ quitCmd contFnC dC =
        ⟨[.killEv, .waitEv], [.statusLine (contFnC infC).2], .exitSession⟩ :=
  ⟨rfl, rfl⟩

/-- C6 (code divergence): a failed spawn panics (`expect`) instead of
returning no controller, while the wait-driven branches match the spec:
premature exit, wait error and non-trap stop give no controller, and a
first stop with `SIGTRAP` gives a live controller. -/
theorem inferior_new_outcomes :
    Inferior.new none (Except.ok (Status.stopped SIGTRAP 0)) [] =
      LaunchResult.fatal
    ∧ Inferior.new (some (infW.mem, 0, 0)) (Except.ok (Status.exited 0)) [] =
        LaunchResult.noInferior "target programme exited prematurely"
    ∧ Inferior.new (some (infW.mem, 0, 0)) (Except.error ()) [] =
        LaunchResult.noInferior "failed to stop target programme"
    ∧ Inferior.new (some (infW.mem, 0, 0)) (Except.ok (Status.signaled 9)) [] =
        LaunchResult.noInferior "failed to create inferior"
    ∧ Inferior.new (some (infW.mem, 0, 0)) (Except.ok (Status.stopped 9 0)) [] =
        LaunchResult.noInferior "failed to create inferior"
    ∧ Inferior.new (some (infW.mem, 0, 0)) (Except.ok (Status.stopped SIGTRAP 0)) [] =
        LaunchResult.launched ⟨infW.mem, fun _ => none, 0, 0⟩ :=
  ⟨rfl, rfl, rfl, rfl, rfl, rfl⟩

/-- C5 (amended): the ordinal a `break` command prints is always the length
of the breakpoint list before the append; an unresolvable spec prints only
`invalid breakpoint format` and changes nothing. -/
theorem breakpoint_ordinal_is_list_length (d : Debugger) (s : List Char) :
    (∀ a, parse_addr d.debug_data s = some a →
      (breakpointCmd d s).2 = [OutLine.setBp d.breakpoints.length a]
      ∧ (breakpointCmd d s).1.breakpoints = d.breakpoints ++ [a])
    ∧ (parse_addr d.debug_data s = none →
      breakpointCmd d s = (d, [OutLine.text "invalid breakpoint format"])) := by
  constructor
  · intro a ha
    simp [breakpointCmd, ha]
  · intro ha
    simp [breakpointCmd, ha]

/-- Witness for C5's amended statement: a resolved `break 0x10` on an empty
list prints ordinal 0, the length before the append. -/
theorem breakpoint_ordinal_witness :
    parse_addr dS.debug_data ['0', 'x', '1', '0'] = some 16
    ∧ (breakpointCmd dS ['0', 'x', '1', '0']).2 =
        [OutLine.setBp dS.breakpoints.length 16] :=
  ⟨rfl, ((breakpoint_ordinal_is_list_length dS ['0', 'x', '1', '0']).1 16 rfl).1⟩

/-- Counterexample to C5 as stated: in a session whose first `break` does
not resolve, the second `break` command prints ordinal 0, not `k - 1 = 1`:
the user-visible counter only advances on successful resolution. -/
theorem breakpoint_ordinal_counterexample :
    (runBreaks dS [['z'], ['0', 'x', '1', '0']]).2 =
      [[OutLine.text "invalid breakpoint format"], [OutLine.setBp 0 16]]
    ∧ OutLine.setBp 0 16 ≠ OutLine.setBp 1 16 :=
  ⟨rfl, by decide⟩

/-- ASCII decimal digit test. -/
def isAsciiDigit (c : Char) : Bool := 48 ≤ c.toNat && c.toNat ≤ 57

/-- Numeric value of a decimal-digit token. -/
def decValue (s : List Char) : Nat :=
  s.foldl (fun acc c => acc * 10 + (c.toNat - 48)) 0

theorem parseDigitsAux_digits (s : List Char)
    (h : ∀ c ∈ s, isAsciiDigit c = true) :
    ∀ acc, parseDigitsAux 10 s acc =
      some (s.foldl (fun a c => a * 10 + (c.toNat - 48)) acc) := by
  induction s with
  | nil => intro acc; rfl
  | cons c cs ih =>
    intro acc
    have hc : 48 ≤ c.toNat ∧ c.toNat ≤ 57 := by
      have := h c (by simp)
      simpa [isAsciiDigit, Bool.and_eq_true, decide_eq_true_eq] using this
    have hcs : ∀ x ∈ cs, isAsciiDigit x = true := fun x hx => h x (by simp [hx])
    have h1 : to_digit c 10 = some (c.toNat - 48) := by
      simp only [to_digit, if_pos hc]
      rw [if_pos (by omega)]
    simp only [parseDigitsAux, h1, List.foldl]
    exact ih hcs (acc * 10 + (c.toNat - 48))

theorem from_str_radix_digits (s : List Char) (hne : s ≠ [])
    (h : ∀ c ∈ s, isAsciiDigit c = true) (hv : decValue s < 2 ^ 64) :
    from_str_radix 10 s = some (decValue s) := by
  cases s with
  | nil => exact absurd rfl hne
  | cons c cs =>
    have hc : 48 ≤ c.toNat ∧ c.toNat ≤ 57 := by
      have := h c (by simp)
      simpa [isAsciiDigit, Bool.and_eq_true, decide_eq_true_eq] using this
    have hplus : ¬ ((c :: cs).head? = some '+') := by
      simp only [List.head?]
      intro h'
      have : c = '+' := by simpa using h'
      rw [this] at hc
      revert hc
      decide
    simp only [from_str_radix, if_neg hplus]
    rw [if_neg (by simp), parseDigitsAux_digits (c :: cs) h 0]
    show (if decValue (c :: cs) < 2 ^ 64 then some (decValue (c :: cs)) else none)
      = some (decValue (c :: cs))
    rw [if_pos hv]

/-- C8 (amended): a token whose lowercased prefix is `0x` is parsed as a
base-16 literal from the remaining characters; a non-`0x` token made of
decimal digits whose value fits in the 64-bit machine word resolves as a
source line via `addr_of_line`; a non-`0x` token the decimal parser rejects
(including oversized digit strings) resolves as a function name via
`addr_of_function`; parse or resolution failure yields no address. -/
theorem parse_addr_spec (dd : DwarfData) (s : List Char) :
    ((s.map Char.toLower).take 2 = ['0', 'x'] →
      parse_addr dd s = from_str_radix 16 (s.drop 2))
    ∧ ((s.map Char.toLower).take 2 ≠ ['0', 'x'] → s ≠ [] →
        (∀ c ∈ s, isAsciiDigit c = true) → decValue s < 2 ^ 64 →
      parse_addr dd s = dd.get_addr_for_line none (decValue s))
    ∧ ((s.map Char.toLower).take 2 ≠ ['0', 'x'] → from_str_radix 10 s = none →
      parse_addr dd s = dd.get_addr_for_function none s) := by
  refine ⟨fun h => by simp [parse_addr, h], ?_, ?_⟩
  · intro h hne hdig hv
    rw [parse_addr, if_neg h, from_str_radix_digits s hne hdig hv]
  · intro h hnone
    rw [parse_addr, if_neg h, hnone]

/-- Witness for C8's amended statement on the decimal token `42`. -/
theorem parse_addr_spec_witness :
    (['4', '2'].map Char.toLower).take 2 ≠ ['0', 'x']
    ∧ parse_addr ddLF ['4', '2'] = ddLF.get_addr_for_line none (decValue ['4', '2']) :=
  ⟨by decide,
   (parse_addr_spec ddLF ['4', '2']).2.1 (by decide) (by decide) (by decide)
     (by decide)⟩

/-- Counterexample to C8 as stated: the 21-digit decimal token overflows the
64-bit parse, so the code resolves it as a function name (address 2 under
`ddLF`), not as a line number (address 1). -/
theorem parse_addr_counterexample :
    (∀ c ∈ List.replicate 21 '9', isAsciiDigit c = true)
    ∧ parse_addr ddLF (List.replicate 21 '9') =
        ddLF.get_addr_for_function none (List.replicate 21 '9')
    ∧ parse_addr ddLF (List.replicate 21 '9') ≠
        ddLF.get_addr_for_line none (decValue (List.replicate 21 '9')) :=
  ⟨by decide, rfl, by decide⟩

theorem print_backtrace_frames_end_at_main (dd : DwarfData) (mem : Mem) :
    ∀ fuel rip rbp fs, print_backtrace dd mem fuel rip rbp = .frames fs →
      ∃ pre last, fs = pre ++ [last] ∧ last.2.1 = "main".toList
        ∧ ∀ f ∈ pre, f.2.1 ≠ "main".toList := by
  intro fuel
  induction fuel with
  | zero => intro rip rbp fs h; exact absurd h (by simp [print_backtrace])
  | succ fuel ih =>
    intro rip rbp fs h
    rw [print_backtrace] at h
    split at h
    · rename_i func line hfeq hleq
      by_cases hmain : func = "main".toList
      · rw [if_pos hmain] at h
        refine ⟨[], (rip, func, line), ?_, hmain, by simp⟩
        simpa using h.symm
      · rw [if_neg hmain] at h
        rcases hrec : print_backtrace dd mem fuel (ptraceReadWord mem (rbp + 8))
            (ptraceReadWord mem rbp) with fs' | _ | _
        · rw [hrec] at h
          simp only [consFrame] at h
          obtain ⟨pre, last, hfs, hlast, hpre⟩ :=
            ih (ptraceReadWord mem (rbp + 8)) (ptraceReadWord mem rbp) fs' hrec
          refine ⟨(rip, func, line) :: pre, last, ?_, hlast, ?_⟩
          · have h' : (rip, func, line) :: fs' = fs := by simpa using h
            rw [← h', hfs]
            simp
          · intro f hfmem
            rcases List.mem_cons.mp hfmem with hfe | hfe
            · rw [hfe]; exact hmain
            · exact hpre f hfe
        · rw [hrec] at h; exact absurd h (by simp [consFrame])
        · rw [hrec] at h; exact absurd h (by simp [consFrame])
    · exact absurd h (by simp)

/-- C9: each backtrace iteration prints the frame for the current
instruction pointer from the oracle, stops exactly when the function is
`main` (every emitted walk ends at the first `main` frame), and otherwise
reloads the instruction pointer from the word at `rbp + 8` and the frame
pointer from the word at `rbp` before looping. -/
theorem print_backtrace_spec (dd : DwarfData) (mem : Mem)
    (fuel rip rbp : Nat) (func line : List Char)
    (hf : dd.get_function_from_addr rip = some func)
    (hl : dd.get_line_from_addr rip = some line) :
    (print_backtrace dd mem (fuel + 1) rip rbp =
      if func = "main".toList then BtResult.frames [(rip, func, line)]
      else consFrame (rip, func, line)
        (print_backtrace dd mem fuel (ptraceReadWord mem (rbp + 8))
          (ptraceReadWord mem rbp)))
    ∧ ∀ fs, print_backtrace dd mem (fuel + 1) rip rbp = .frames fs →
        ∃ pre last, fs = pre ++ [last] ∧ last.2.1 = "main".toList
          ∧ ∀ f ∈ pre, f.2.1 ≠ "main".toList := by
  constructor
  · rw [print_backtrace, hf, hl]
  · exact print_backtrace_frames_end_at_main dd mem (fuel + 1) rip rbp

/-- Witness for C9 on the concrete two-frame program: from `greet` the walk
recurses on the words at `rbp + 8` and `rbp`. -/
theorem print_backtrace_spec_witness :
    ddBT.get_function_from_addr 100 = some "greet".toList
    ∧ print_backtrace ddBT memBT 2 100 1000 =
        consFrame (100, "greet".toList, "main.c:3".toList)
          (print_backtrace ddBT memBT 1 (ptraceReadWord memBT (1000 + 8))
            (ptraceReadWord memBT 1000)) := by
  refine ⟨rfl, ?_⟩
  have h := (print_backtrace_spec ddBT memBT 1 100 1000 "greet".toList
    "main.c:3".toList rfl rfl).1
  rw [h, if_neg (by decide)]

end Deet
